import Mathlib

/-!
Verification of the Collatz Conjecture Checker (Source/Main.cpp) against its
design specification.  The program is embedded shallowly: GMP big integers
(`mpz_t`) become `Nat` (the program only ever holds non-negative values once
the validated start number is read), the unbounded verifier loop becomes a
fuel-indexed function returning `Option`, the worker and scheduler launch
loops keep their 32-bit `unsigned` counters (incremented modulo 2^32) and are
fuel-indexed as well, and the console-input routines become functions over a
stream (`List`) of input lines, each line a `List Char`.
-/

set_option maxRecDepth 10000
set_option maxHeartbeats 4000000

namespace CollatzChecker

/-- One Collatz step, the body of the while loop in `collatz_conjecture`:
if the number is even, divide by two (`mpz_divexact_ui` by 2); if the number
is odd, triple it and add one (`mpz_mul_ui` by 3 then `mpz_add_ui` 1). -/
def collatzStep (n : Nat) : Nat := if n % 2 = 0 then n / 2 else 3 * n + 1

/-- The while loop of `collatz_conjecture`, fuel-indexed.  Each pass first
tests `mpz_cmp_ui (number, 1) == 0` and breaks, otherwise performs one
Collatz step.  Returns `some 1` when the loop exits (the working value
reached 1) within the given fuel, `none` when the fuel runs out first. -/
def collatzLoop : Nat → Nat → Option Nat
  | 0, n => if n = 1 then some 1 else none
  | fuel + 1, n => if n = 1 then some 1 else collatzLoop fuel (collatzStep n)

/-- Embedding of `collatz_conjecture (mpz_t start_number)`.  The function
copies the caller's value into a fresh local (`mpz_init_set (number,
start_number)`), loops on the local only, and never writes through the
caller's pointer.  The result pairs the caller's cell after the call with
the outcome of the loop (`some 1` when it exited within `fuel` steps). -/
def collatz_conjecture (fuel : Nat) (start_number : Nat) : Nat × Option Nat :=
  let number := start_number
  (start_number, collatzLoop fuel number)

/-- The for loop of `thread_procedure (mpz_t thread_start_number,
unsigned long iterations_per_thread)`.  Its counter `i` is a 32-bit
`unsigned`, so `++i` wraps modulo 2^32, while the bound
`iterations_per_thread` is 64-bit.  Each pass whose guard
`i < iterations_per_thread` holds calls `collatz_conjecture` on the current
counter, then increments the counter by one (`mpz_add_ui`).  `fuel` bounds
the number of passes modelled; `none` means the loop did not exit within the
fuel.  On exit the result pairs the trace of values the verifier was called
on (in call order) with the final counter value. -/
def worker_loop (vfuel iterations_per_thread : Nat) :
    Nat → Nat → Nat → List Nat → Option (List Nat × Nat)
  | 0, _, _, _ => none
  | fuel + 1, i, s, acc =>
    if i < iterations_per_thread then
      let verified := collatz_conjecture vfuel s
      worker_loop vfuel iterations_per_thread fuel ((i + 1) % 2 ^ 32)
        (verified.1 + 1) (acc ++ [s])
    else some (acc, s)

/-- Embedding of `thread_procedure`: run the worker loop from `i = 0` on the
assigned starting value, with an empty trace. -/
def thread_procedure (vfuel thread_start_number iterations_per_thread fuel :
    Nat) : Option (List Nat × Nat) :=
  worker_loop vfuel iterations_per_thread fuel 0 thread_start_number []

/-- The list of worker assignments a completed launch loop hands out when
started at `s`: each entry pairs the start value passed to one launched
worker with `iterations_per_thread`, the next entry starting `i` later. -/
def partition : Nat → Nat → Nat → List (Nat × Nat)
  | _, 0, _ => []
  | s, t + 1, i => (s, i) :: partition (s + i) t i

/-- The thread-launch loop of `main`.  Its counter `i` is a 32-bit
`unsigned`, so `++i` wraps modulo 2^32, while `thread_count` is `uint64_t`.
Each pass whose guard `i < thread_count` holds records the pair (current
`thread_start_number` value, `iterations_per_thread`) handed to the launched
worker, then advances the start value by `iterations_per_thread`
(`mpz_add_ui`).  `fuel` bounds the number of passes modelled; `none` means
the loop did not exit within the fuel. -/
def launch_loop (thread_count iterations_per_thread : Nat) :
    Nat → Nat → Nat → List (Nat × Nat) → Option (List (Nat × Nat))
  | 0, _, _, _ => none
  | fuel + 1, i, s, acc =>
    if i < thread_count then
      launch_loop thread_count iterations_per_thread fuel ((i + 1) % 2 ^ 32)
        (s + iterations_per_thread) (acc ++ [(s, iterations_per_thread)])
    else some acc

/-- An assignment `(start, count)` covers the integer `x` when `x` lies in
the half-open interval `[start, start + count)`. -/
def covers (p : Nat × Nat) (x : Nat) : Prop := p.1 ≤ x ∧ x < p.1 + p.2

/-- Some assignment in the list covers `x`. -/
def coveredBy (l : List (Nat × Nat)) (x : Nat) : Prop := ∃ p ∈ l, covers p x

/-- The `uint64_t` product `thread_count * iterations_per_thread` computed in
`main`: C++ unsigned 64-bit multiplication, which wraps modulo 2^64. -/
def batch_size (thread_count iterations_per_thread : Nat) : Nat :=
  thread_count * iterations_per_thread % 2 ^ 64

/-- Value of `batch_start_number` after `n` completed batches: the scheduler
loop ends each iteration with `mpz_add_ui (batch_start_number,
batch_start_number, batch_size)`, and modifies the batch start nowhere else. -/
def batch_start_after (s0 b : Nat) : Nat → Nat
  | 0 => s0
  | n + 1 => batch_start_after s0 b n + b

/-- In C++, `mpz_t` is a one-element array type, so the argument
`thread_start_number` passed to `std::thread` decays to a pointer and the
thread object stores that pointer: every launched worker receives the address
of the scheduler's single `thread_start_number` cell, whatever its index. -/
def worker_arg_addr (thread_start_addr : Nat) (i : Nat) : Nat :=
  thread_start_addr

/-- Value held by the single shared `thread_start_number` cell after the
launch loop has completed `t` of its iterations (each iteration launches a
worker, then adds `iterations_per_thread` to the shared cell). -/
def shared_cell_value (s i : Nat) : Nat → Nat
  | 0 => s
  | t + 1 => shared_cell_value s i t + i

/-- The starting value the specification intends worker `i` to own:
`start + i * iterations_per_thread`, copied independently before launch. -/
def intended_worker_start (s i : Nat) (k : Nat) : Nat := s + k * i

/-- Test `input.find_first_not_of ("0123456789") == std::string::npos`:
true exactly when every character of the line is a decimal digit (vacuously
true for the empty line). -/
def is_numeric (s : List Char) : Bool := s.all fun c => c.isDigit

/-- Numeric value of a character that is a decimal digit. -/
def digitVal (c : Char) : Nat := c.toNat - 48

/-- Value of a string of decimal digits, most significant first. -/
def digitsVal (s : List Char) : Nat := s.foldl (fun a c => 10 * a + digitVal c) 0

/-- The largest `uint64_t` value, used by `get_int64` as the
`std::strtoull` overflow sentinel. -/
def ULLONG_MAX : Nat := 2 ^ 64 - 1

/-- Model of `std::strtoull (input.c_str (), nullptr, 10)` on the inputs the
surrounding guard can accept: the value of the longest leading run of decimal
digits, saturating at `ULLONG_MAX` (which `strtoull` returns on overflow).
Lines containing a non-digit anywhere are rejected by the `is_numeric` guard
before the parsed value is used, so only the all-digit behaviour matters. -/
def strtoull (s : List Char) : Nat :=
  min (digitsVal (s.takeWhile fun c => c.isDigit)) ULLONG_MAX

/-- Embedding of `get_int64`: consume lines from the input stream until one
is all digits, parses below the `ULLONG_MAX` sentinel, and is positive; then
return that value together with the remaining stream.  Returns `none` when
the stream is exhausted first (the real loop would keep prompting). -/
def get_int64 : List (List Char) → Option (Nat × List (List Char))
  | [] => none
  | input :: rest =>
    let result := strtoull input
    if is_numeric input ∧ result ≠ ULLONG_MAX ∧ 0 < result then
      some (result, rest)
    else
      get_int64 rest

/-- Model of `mpz_init_set_str (batch_start_number, input.c_str (), 10)`:
an optional leading minus sign followed by at least one decimal digit parses
to that integer; on any other string GMP reports failure (-1) and the freshly
initialized `rop` keeps the value 0. -/
def mpz_init_set_str : List Char → Int
  | '-' :: rest =>
    if rest ≠ [] ∧ is_numeric rest then -(digitsVal rest : Int) else 0
  | s =>
    if s ≠ [] ∧ is_numeric s then (digitsVal s : Int) else 0

/-- The start-number input loop of `main`: read a line, parse it with
`mpz_init_set_str`, and break only when the parsed value compares greater
than 0 (`mpz_cmp_ui (batch_start_number, 0) > 0`); otherwise retry. -/
def get_start_number : List (List Char) → Option (Int × List (List Char))
  | [] => none
  | input :: rest =>
    let v := mpz_init_set_str input
    if 0 < v then some (v, rest) else get_start_number rest

/-- The decimal digits of 18446744073709551615 = 2^64 - 1, a valid positive
64-bit value whose digit string `get_int64` nevertheless rejects. -/
def maxUint64Digits : List Char :=
  ['1', '8', '4', '4', '6', '7', '4', '4', '0', '7', '3', '7', '0', '9', '5',
   '5', '1', '6', '1', '5']

/-! Helper lemmas. -/

theorem partition_length (S T I : Nat) : (partition S T I).length = T := by
  induction T generalizing S with
  | zero => rfl
  | succ t ih => simp [partition, ih]

theorem partition_get? (S T I k : Nat) (h : k < T) :
    (partition S T I).get? k = some (S + k * I, I) := by
  induction T generalizing S k with
  | zero => exact absurd h (Nat.not_lt_zero k)
  | succ t ih =>
    cases k with
    | zero => simp [partition]
    | succ k' =>
      have hk : k' < t := Nat.lt_of_succ_lt_succ h
      simp only [partition, List.get?_cons_succ]
      rw [ih (S + I) k' hk]
      congr 1
      congr 1
      rw [Nat.succ_mul]
      omega

theorem covers_disjoint {S I j k x : Nat}
    (hj : covers (S + j * I, I) x) (hk : covers (S + k * I, I) x) : j = k := by
  rcases hj with ⟨hj1, hj2⟩
  rcases hk with ⟨hk1, hk2⟩
  simp only at hj1 hj2 hk1 hk2
  by_contra hne
  rcases Nat.lt_or_ge j k with h | h
  · have h1 : j + 1 ≤ k := h
    have h2 : (j + 1) * I ≤ k * I := Nat.mul_le_mul_right I h1
    have : x < x := by
      calc x < S + j * I + I := hj2
        _ = S + (j + 1) * I := by rw [Nat.succ_mul]; omega
        _ ≤ S + k * I := Nat.add_le_add_left h2 S
        _ ≤ x := hk1
    exact absurd this (Nat.lt_irrefl x)
  · have hlt : k < j := Nat.lt_of_le_of_ne h (fun hkj => hne hkj.symm)
    have h1 : k + 1 ≤ j := hlt
    have h2 : (k + 1) * I ≤ j * I := Nat.mul_le_mul_right I h1
    have : x < x := by
      calc x < S + k * I + I := hk2
        _ = S + (k + 1) * I := by rw [Nat.succ_mul]; omega
        _ ≤ S + j * I := Nat.add_le_add_left h2 S
        _ ≤ x := hj1
    exact absurd this (Nat.lt_irrefl x)

theorem partition_coveredBy (S T I x : Nat) :
    coveredBy (partition S T I) x ↔ S ≤ x ∧ x < S + T * I := by
  induction T generalizing S with
  | zero =>
    simp only [partition, Nat.zero_mul, Nat.add_zero]
    constructor
    · rintro ⟨p, hp, _⟩
      exact absurd hp (List.not_mem_nil p)
    · intro h
      exact absurd h.2 (Nat.not_lt.mpr h.1)
  | succ t ih =>
    constructor
    · rintro ⟨p, hp, hc⟩
      simp only [partition, List.mem_cons] at hp
      rw [Nat.succ_mul]
      rcases hp with rfl | hp'
      · simp only [covers] at hc
        omega
      · have := (ih (S + I)).mp ⟨p, hp', hc⟩
        omega
    · intro h
      rw [Nat.succ_mul] at h
      by_cases hx : x < S + I
      · refine ⟨(S, I), ?_, h.1, hx⟩
        simp [partition]
      · have hx' : S + I ≤ x := Nat.le_of_not_lt hx
        have hin : S + I ≤ x ∧ x < S + I + t * I := by omega
        rcases (ih (S + I)).mpr hin with ⟨p, hp, hc⟩
        refine ⟨p, ?_, hc⟩
        simp [partition, hp]

theorem launch_loop_complete (T I : Nat) (hT : T < 2 ^ 32) :
    ∀ fuel i s acc, i ≤ T → T - i < fuel →
      launch_loop T I fuel i s acc = some (acc ++ partition s (T - i) I) := by
  intro fuel
  induction fuel with
  | zero =>
    intro i s acc h1 h2
    omega
  | succ fuel ih =>
    intro i s acc h1 h2
    simp only [launch_loop]
    by_cases hi : i < T
    · rw [if_pos hi]
      have hmod : (i + 1) % 2 ^ 32 = i + 1 := Nat.mod_eq_of_lt (by omega)
      rw [hmod, ih (i + 1) (s + I) (acc ++ [(s, I)]) (by omega) (by omega)]
      have hsub : T - i = (T - (i + 1)) + 1 := by omega
      rw [hsub]
      simp [partition]
    · rw [if_neg hi]
      have h0 : T - i = 0 := by omega
      rw [h0]
      simp [partition]

theorem launch_loop_wrap (T I : Nat) (hT : 2 ^ 32 ≤ T) :
    ∀ fuel i s acc, i < 2 ^ 32 → launch_loop T I fuel i s acc = none := by
  intro fuel
  induction fuel with
  | zero =>
    intro i s acc _
    rfl
  | succ fuel ih =>
    intro i s acc hi
    simp only [launch_loop]
    rw [if_pos (by omega)]
    exact ih _ _ _ (Nat.mod_lt _ (by norm_num))

theorem worker_loop_complete (vfuel c : Nat) (hc : c < 2 ^ 32) :
    ∀ fuel i s acc, i ≤ c → c - i < fuel →
      worker_loop vfuel c fuel i s acc =
        some (acc ++ List.range' s (c - i), s + (c - i)) := by
  intro fuel
  induction fuel with
  | zero =>
    intro i s acc h1 h2
    omega
  | succ fuel ih =>
    intro i s acc h1 h2
    simp only [worker_loop, collatz_conjecture]
    by_cases hi : i < c
    · rw [if_pos hi]
      have hmod : (i + 1) % 2 ^ 32 = i + 1 := Nat.mod_eq_of_lt (by omega)
      rw [hmod, ih (i + 1) (s + 1) (acc ++ [s]) (by omega) (by omega)]
      have hsub : c - i = (c - (i + 1)) + 1 := by omega
      rw [hsub, List.range'_succ]
      simp only [Option.some.injEq, Prod.mk.injEq]
      constructor
      · simp
      · omega
    · rw [if_neg hi]
      have h0 : c - i = 0 := by omega
      rw [h0]
      simp [List.range']

theorem worker_loop_wrap (vfuel c : Nat) (hc : 2 ^ 32 ≤ c) :
    ∀ fuel i s acc, i < 2 ^ 32 → worker_loop vfuel c fuel i s acc = none := by
  intro fuel
  induction fuel with
  | zero =>
    intro i s acc _
    rfl
  | succ fuel ih =>
    intro i s acc hi
    simp only [worker_loop]
    rw [if_pos (by omega)]
    exact ih _ _ _ (Nat.mod_lt _ (by norm_num))

theorem collatz_check : ∀ n, n < 1000 → collatzLoop 1000 (n + 1) = some 1 := by
  decide

theorem collatzLoop_one (fuel : Nat) : collatzLoop fuel 1 = some 1 := by
  cases fuel <;> simp [collatzLoop]

theorem collatzLoop_some (fuel n r : Nat) (h : collatzLoop fuel n = some r) :
    r = 1 := by
  induction fuel generalizing n with
  | zero =>
    simp only [collatzLoop] at h
    by_cases hn : n = 1
    · rw [if_pos hn] at h
      exact (Option.some.inj h).symm
    · rw [if_neg hn] at h
      cases h
  | succ f ih =>
    simp only [collatzLoop] at h
    by_cases hn : n = 1
    · rw [if_pos hn] at h
      exact (Option.some.inj h).symm
    · rw [if_neg hn] at h
      exact ih _ h

theorem get_int64_sound (inputs : List (List Char)) (v : Nat)
    (rest : List (List Char)) (h : get_int64 inputs = some (v, rest)) :
    1 ≤ v ∧ v ≤ 2 ^ 64 - 2 := by
  induction inputs with
  | nil => cases h
  | cons input t ih =>
    simp only [get_int64] at h
    split at h
    · rename_i hcond
      rcases hcond with ⟨_, hmax, hpos⟩
      have hv : v = strtoull input := (Prod.mk.injEq _ _ _ _ ▸ Option.some.inj h).1.symm
      have hle : strtoull input ≤ ULLONG_MAX := Nat.min_le_right _ _
      constructor
      · omega
      · have : strtoull input ≠ ULLONG_MAX := hmax
        simp only [ULLONG_MAX] at hle this
        omega
    · exact ih h

theorem get_int64_skip (input : List Char) (rest : List (List Char))
    (h : ¬(is_numeric input ∧ strtoull input ≠ ULLONG_MAX ∧ 0 < strtoull input)) :
    get_int64 (input :: rest) = get_int64 rest := by
  simp only [get_int64]
  rw [if_neg h]

theorem get_start_number_sound (inputs : List (List Char)) (v : Int)
    (rest : List (List Char)) (h : get_start_number inputs = some (v, rest)) :
    0 < v := by
  induction inputs with
  | nil => cases h
  | cons input t ih =>
    simp only [get_start_number] at h
    split at h
    · rename_i hcond
      have hv : v = mpz_init_set_str input :=
        (Prod.mk.injEq _ _ _ _ ▸ Option.some.inj h).1.symm
      rw [hv]
      exact hcond
    · exact ih h

theorem get_start_number_skip (input : List Char) (rest : List (List Char))
    (h : ¬(0 < mpz_init_set_str input)) :
    get_start_number (input :: rest) = get_start_number rest := by
  simp only [get_start_number]
  rw [if_neg h]

/-! Claim theorems. -/

/-- C1 counterexample: at `thread_count = 2^32` — inside the claim's valid
RunConfig range — the launch loop's 32-bit `unsigned` counter wraps modulo
2^32, so its guard `i < thread_count` never fails: no amount of fuel makes
the loop exit, and the scheduler never derives the claimed `T` assignments. -/
theorem c1_counterexample :
    (1 ≤ 2 ^ 32 ∧ (2 ^ 32 : Nat) < 2 ^ 64)
    ∧ ¬∃ fuel res, launch_loop (2 ^ 32) 1 fuel 0 1 [] = some res := by
  refine ⟨⟨by norm_num, by norm_num⟩, ?_⟩
  rintro ⟨fuel, res, h⟩
  rw [launch_loop_wrap (2 ^ 32) 1 (Nat.le_refl _) fuel 0 1 [] (by norm_num)]
    at h
  cases h

/-- C1 (amended): for every batch start `S` and RunConfig with
`1 ≤ thread_count = T < 2^32` (the 32-bit loop counter's range) and
`iterations_per_thread = I ≥ 1`, the launch loop terminates and derives
exactly the `T` worker assignments `partition S T I`; assignment `k` starts
at `S + k * I` and spans `I` integers; assignments with distinct indices
cover no common integer (pairwise disjoint, and by the index formula
contiguous); and together the assignments cover exactly the half-open
interval `[S, S + T * I)`. -/
theorem c1_scheduler_partition (S T I : Nat) (hT : 1 ≤ T)
    (hT32 : T < 2 ^ 32) (hI : 1 ≤ I) :
    launch_loop T I (T + 1) 0 S [] = some (partition S T I)
    ∧ (partition S T I).length = T
    ∧ (∀ k, k < T → (partition S T I).get? k = some (S + k * I, I))
    ∧ (∀ j k x, j < T → k < T →
        covers (S + j * I, I) x → covers (S + k * I, I) x → j = k)
    ∧ (∀ x, coveredBy (partition S T I) x ↔ S ≤ x ∧ x < S + T * I) := by
  refine ⟨?_, partition_length S T I, fun k hk => partition_get? S T I k hk,
    fun _ _ _ _ _ hj hk => covers_disjoint hj hk,
    fun x => partition_coveredBy S T I x⟩
  have h := launch_loop_complete T I hT32 (T + 1) 0 S [] (by omega) (by omega)
  simpa using h

/-- Witness for C1 at the specification's concrete scenario
(`start = 10`, `thread_count = 2`, `iterations_per_thread = 3`). -/
theorem c1_scheduler_partition_witness :
    launch_loop 2 3 (2 + 1) 0 10 [] = some (partition 10 2 3)
    ∧ (partition 10 2 3).get? 1 = some (10 + 1 * 3, 3)
    ∧ coveredBy (partition 10 2 3) 15 :=
  ⟨(c1_scheduler_partition 10 2 3 (by decide) (by decide) (by decide)).1,
   (c1_scheduler_partition 10 2 3 (by decide) (by decide) (by decide)).2.2.1
     1 (by decide),
   ((c1_scheduler_partition 10 2 3 (by decide) (by decide)
     (by decide)).2.2.2.2 15).mpr (by decide)⟩

/-- C2 counterexample: at `iterations_per_thread = 2^32` — a value
`get_int64` can return — the worker loop's 32-bit `unsigned` counter wraps
modulo 2^32, so its guard `i < iterations_per_thread` never fails: no amount
of fuel makes `thread_procedure` return, refuting "performs exactly c
iterations ... and then returns". -/
theorem c2_counterexample :
    (1 ≤ 2 ^ 32)
    ∧ ¬∃ fuel res, thread_procedure 0 1 (2 ^ 32) fuel = some res := by
  refine ⟨by norm_num, ?_⟩
  rintro ⟨fuel, res, h⟩
  simp only [thread_procedure] at h
  rw [worker_loop_wrap 0 (2 ^ 32) (Nat.le_refl _) fuel 0 1 [] (by norm_num)]
    at h
  cases h

/-- C2 (amended): for every worker assignment with starting value `s` and
count `1 ≤ c < 2^32` (the 32-bit loop counter's range), the worker procedure
returns after exactly `c` iterations, its trace of verifier calls is exactly
`s, s + 1, ..., s + c - 1` in increasing order (the list `range' s c`, of
length exactly `c`), and its counter ends at `s + c`. -/
theorem c2_worker_iterations (vfuel s c : Nat) (hc : 1 ≤ c)
    (hc32 : c < 2 ^ 32) :
    thread_procedure vfuel s c (c + 1) = some (List.range' s c, s + c)
    ∧ (List.range' s c).length = c := by
  constructor
  · have h := worker_loop_complete vfuel c hc32 (c + 1) 0 s [] (by omega)
      (by omega)
    simpa [thread_procedure] using h
  · rw [List.length_range']

/-- Witness for C2 at `s = 13`, `c = 3`. -/
theorem c2_worker_iterations_witness :
    thread_procedure 0 13 3 (3 + 1) = some (List.range' 13 3, 13 + 3) :=
  (c2_worker_iterations 0 13 3 (by decide) (by decide)).1

/-- C3: the verifier's loop body applies exactly one Collatz step per pass:
an even working value `c` is replaced by exactly `c / 2` with no remainder
loss, an odd one by exactly `3 * c + 1`; while the value is not 1 the loop
continues, on the value 1 it exits at once, and whenever the loop exits the
working value is precisely 1. -/
theorem c3_collatz_step_loop :
    (∀ c, c % 2 = 0 → collatzStep c = c / 2 ∧ c / 2 * 2 = c)
    ∧ (∀ c, c % 2 ≠ 0 → collatzStep c = 3 * c + 1)
    ∧ (∀ fuel n, n ≠ 1 → collatzLoop (fuel + 1) n = collatzLoop fuel (collatzStep n))
    ∧ (∀ fuel, collatzLoop fuel 1 = some 1)
    ∧ (∀ fuel n r, collatzLoop fuel n = some r → r = 1) := by
  refine ⟨?_, ?_, ?_, collatzLoop_one, collatzLoop_some⟩
  · intro c hc
    refine ⟨by simp [collatzStep, hc], ?_⟩
    exact Nat.div_mul_cancel (Nat.dvd_of_mod_eq_zero hc)
  · intro c hc
    simp [collatzStep, hc]
  · intro fuel n hn
    simp [collatzLoop, hn]

/-- Witness for C3 at the even value 6, the odd value 7, and the loop on
2 and on 1. -/
theorem c3_collatz_step_loop_witness :
    (collatzStep 6 = 6 / 2 ∧ 6 / 2 * 2 = 6)
    ∧ collatzStep 7 = 3 * 7 + 1
    ∧ collatzLoop 4 2 = collatzLoop 3 (collatzStep 2)
    ∧ collatzLoop 5 1 = some 1
    ∧ (1 : Nat) = 1 :=
  ⟨c3_collatz_step_loop.1 6 (by decide),
   c3_collatz_step_loop.2.1 7 (by decide),
   c3_collatz_step_loop.2.2.1 3 2 (by decide),
   c3_collatz_step_loop.2.2.2.1 5,
   c3_collatz_step_loop.2.2.2.2 5 1 1 (by decide)⟩

/-- C5: for every positive integer n below the bound 1001 (verified here by
computation), the verifier loop seeded with n terminates with the working
value 1; in particular for n = 1 it terminates immediately, with fuel for
zero Collatz steps. -/
theorem c5_bounded_termination :
    (∀ n, 0 < n → n < 1001 → ∃ fuel, collatzLoop fuel n = some 1)
    ∧ collatzLoop 0 1 = some 1 := by
  constructor
  · intro n h1 h2
    refine ⟨1000, ?_⟩
    have h := collatz_check (n - 1) (by omega)
    have hn : n - 1 + 1 = n := by omega
    rwa [hn] at h
  · rfl

/-- Witness for C5 at n = 27. -/
theorem c5_bounded_termination_witness :
    (∃ fuel, collatzLoop fuel 27 = some 1) ∧ collatzLoop 0 1 = some 1 :=
  ⟨c5_bounded_termination.1 27 (by decide) (by decide),
   c5_bounded_termination.2⟩

/-- C6: the verifier never writes through the caller's pointer: it loops on
a private copy, so the caller's counter cell after `collatz_conjecture`
returns equals the value passed in, for every value and every fuel. -/
theorem c6_verifier_frame (fuel v : Nat) : (collatz_conjecture fuel v).1 = v :=
  rfl

/-- C7: after `n` completed batches starting at `s0` with constant batch
size `b`, the scheduler's batch start equals exactly `s0 + n * b`. -/
theorem c7_batch_advance (s0 b n : Nat) :
    batch_start_after s0 b n = s0 + n * b := by
  induction n with
  | zero => simp [batch_start_after]
  | succ k ih =>
    simp only [batch_start_after, ih, Nat.succ_mul]
    omega

/-- C8 counterexample: at `thread_count = 2^32` and
`iterations_per_thread = 2^32` — both in `[1, 2^64)` — the `uint64_t`
product wraps to 0, so the batch size the scheduler uses is not the
mathematical product: the multiplication silently truncates. -/
theorem c8_overflow_counterexample :
    (1 ≤ 2 ^ 32 ∧ (2 ^ 32 : Nat) < 2 ^ 64)
    ∧ batch_size (2 ^ 32) (2 ^ 32) = 0
    ∧ batch_size (2 ^ 32) (2 ^ 32) ≠ 2 ^ 32 * 2 ^ 32 := by
  refine ⟨⟨?_, ?_⟩, ?_, ?_⟩ <;> norm_num [batch_size]

/-- C8 amended: the batch size the scheduler uses equals the `uint64_t`
value `(thread_count * iterations_per_thread) mod 2^64`; it equals the
mathematical product exactly when that product fits in 64 bits. -/
theorem c8_batch_size_exact (T I : Nat) (hT : 1 ≤ T) (hI : 1 ≤ I)
    (h : T * I < 2 ^ 64) : batch_size T I = T * I := by
  rw [batch_size, Nat.mod_eq_of_lt h]

/-- Witness for the amended C8 at `T = 2`, `I = 1000000`. -/
theorem c8_batch_size_exact_witness :
    (2 * 1000000 < 2 ^ 64) ∧ batch_size 2 1000000 = 2 * 1000000 :=
  ⟨by norm_num,
   c8_batch_size_exact 2 1000000 (by norm_num) (by norm_num) (by norm_num)⟩

/-- C9: whenever the input routines return, the values the core observes
are valid — `get_int64` returns only values ≥ 1 and the start-number loop
returns only strictly positive integers — and on any invalid line
(non-numeric text, a zero parse, a non-positive start value) each routine
moves on to the next line instead of returning. -/
theorem c9_validated_config :
    (∀ inputs v rest, get_int64 inputs = some (v, rest) → 1 ≤ v)
    ∧ (∀ inputs v rest, get_start_number inputs = some (v, rest) → 0 < v)
    ∧ (∀ input rest, is_numeric input = false →
        get_int64 (input :: rest) = get_int64 rest)
    ∧ (∀ input rest, strtoull input = 0 →
        get_int64 (input :: rest) = get_int64 rest)
    ∧ (∀ input rest, mpz_init_set_str input ≤ 0 →
        get_start_number (input :: rest) = get_start_number rest) := by
  refine ⟨?_, get_start_number_sound, ?_, ?_, ?_⟩
  · intro inputs v rest h
    exact (get_int64_sound inputs v rest h).1
  · intro input rest hnum
    exact get_int64_skip input rest (by simp [hnum])
  · intro input rest h0
    exact get_int64_skip input rest (by simp [h0])
  · intro input rest h
    exact get_start_number_skip input rest (by omega)

/-- Witness for C9: the line "4" yields 4 ≥ 1, the line "7" yields the
positive start 7, and the invalid lines "x", "0" and "-5" are skipped. -/
theorem c9_validated_config_witness :
    1 ≤ 4
    ∧ 0 < (7 : Int)
    ∧ get_int64 [['x'], ['4']] = get_int64 [['4']]
    ∧ get_int64 [['0'], ['4']] = get_int64 [['4']]
    ∧ get_start_number [['-', '5'], ['7']] = get_start_number [['7']] :=
  ⟨c9_validated_config.1 [['4']] 4 [] (by decide),
   c9_validated_config.2.1 [['7']] 7 [] (by decide),
   c9_validated_config.2.2.1 ['x'] [['4']] (by decide),
   c9_validated_config.2.2.2.1 ['0'] [['4']] (by decide),
   c9_validated_config.2.2.2.2 ['-', '5'] [['7']] (by decide)⟩

/-- C10: every value `get_int64` returns lies in `[1, 2^64 - 2]` — never 0
and never `ULLONG_MAX = 2^64 - 1`, the parse-overflow sentinel — and the
digit string for 18446744073709551615, though a valid positive 64-bit
integer, is skipped like malformed input. -/
theorem c10_int64_range :
    (∀ inputs v rest, get_int64 inputs = some (v, rest) →
      1 ≤ v ∧ v ≤ 2 ^ 64 - 2)
    ∧ (∀ rest, get_int64 (maxUint64Digits :: rest) = get_int64 rest) := by
  refine ⟨get_int64_sound, ?_⟩
  intro rest
  apply get_int64_skip
  intro hcond
  have hmax : strtoull maxUint64Digits = ULLONG_MAX := by decide
  exact hcond.2.1 hmax

/-- Witness for C10: the line "4" returns 4 ∈ [1, 2^64 - 2], after the
rejected line 18446744073709551615. -/
theorem c10_int64_range_witness :
    (1 ≤ 4 ∧ 4 ≤ 2 ^ 64 - 2)
    ∧ get_int64 (maxUint64Digits :: [['4']]) = get_int64 [['4']] :=
  ⟨c10_int64_range.1 [['4']] 4 [] (by decide),
   c10_int64_range.2 [['4']]⟩

/-- C4 (refuting the claim on the code): every launched worker receives the
same address — that of the scheduler's single `thread_start_number` cell —
rather than an independently-owned copy, and with `start = 1`,
`thread_count = 2`, `iterations_per_thread = 1` the shared cell holds 3
after the launch loop, not worker 0's intended start 1, so the spawning
thread's mutations are visible through every worker's argument. -/
theorem c4_shared_counter :
    worker_arg_addr 0 0 = worker_arg_addr 0 1
    ∧ shared_cell_value 1 1 2 = 3
    ∧ shared_cell_value 1 1 2 ≠ intended_worker_start 1 1 0 := by
  decide

end CollatzChecker
